import Mathlib

set_option maxHeartbeats 1000000
set_option maxRecDepth 8192

/-!
Shallow embedding of the `eyes` TCP port scanner (src/main.rs).

Strings are embedded as `List Char`. Fallible Rust code is embedded in
`Option`: a `none` result of `parse_ports` models a panic of the process
(a failed `unwrap` or an out-of-bounds index), since `parse_ports` has no
`Result` return and any failure aborts. The scan engine's concurrent
execution is embedded as a small-step transition relation on an explicit
scheduler state; console output is modelled as a list of abstract `Line`
values, one per `println!`.
-/

/-- Models Rust `str::split(sep)` for a one-character separator: an empty
input yields one empty piece and adjacent separators yield empty pieces,
exactly as Rust's `split` iterator does. -/
def splitOnChar (sep : Char) : List Char → List (List Char)
  | [] => [[]]
  | c :: rest =>
    if c = sep then [] :: splitOnChar sep rest
    else
      match splitOnChar sep rest with
      | [] => [[]]
      | g :: gs => (c :: g) :: gs

/-- Digit-folding core of `str::parse::<u16>`: consumes ASCII digits,
accumulating `acc * 10 + d` and rejecting any intermediate value that
overflows the 16-bit domain, as Rust's checked accumulation does. -/
def parseDigitsU16 : List Char → Nat → Option Nat
  | [], acc => some acc
  | c :: rest, acc =>
    if c.isDigit then
      if acc * 10 + (c.toNat - 48) < 65536 then
        parseDigitsU16 rest (acc * 10 + (c.toNat - 48))
      else none
    else none

/-- Models Rust `str::parse::<u16>`: an optional leading plus sign followed
by one or more ASCII digits, with the value required to fit in 16 bits;
`none` models `Err`. -/
def parse_u16 (s : List Char) : Option Nat :=
  match s with
  | [] => none
  | c :: rest =>
    if c = '+' then (if rest.isEmpty then none else parseDigitsU16 rest 0)
    else parseDigitsU16 (c :: rest) 0

/-- Models the Rust inclusive range `a..=b` as consumed by `Vec::extend`:
the ascending inclusive sequence, empty when the lower bound exceeds the
upper bound (Rust's `RangeInclusive` yields nothing in that case). -/
def rangeIncl (a b : Nat) : List Nat :=
  if a ≤ b then List.range' a (b - a + 1) else []

/-- The default port range `1..=1024` from the final fallback branch of
`parse_ports`. -/
def defaultPorts : List Nat := List.range' 1 1024

/-- Models the range-token lines of `parse_ports`:
`p.split('-').map(|x| x.parse::<u16>().unwrap()).collect()` followed by
`ports.extend(range[0]..=range[1])`. `none` models a panic, either from a
failed `unwrap` on a bound that does not parse as `u16`, or from an
out-of-bounds index (unreachable when the token contains a dash). -/
def evalRange (p : List Char) : Option (List Nat) :=
  match (splitOnChar '-' p).mapM parse_u16 with
  | none => none
  | some (a :: b :: _) => some (rangeIncl a b)
  | some _ => none

/-- Contribution of one comma-separated token, following the loop body of
`parse_ports`: a token containing a dash is a range (panicking on a bad
bound); any other token contributes its parsed port, or nothing when the
parse fails. -/
def evalToken (p : List Char) : Option (List Nat) :=
  if '-' ∈ p then evalRange p
  else
    match parse_u16 p with
    | some v => some [v]
    | none => some []

/-- The `for p in ps` loop of `parse_ports`, with the mutable `ports`
vector passed explicitly. -/
def parsePortsLoop : List (List Char) → List Nat → Option (List Nat)
  | [], ports => some ports
  | p :: rest, ports =>
    if '-' ∈ p then
      match evalRange p with
      | none => none
      | some r => parsePortsLoop rest (ports ++ r)
    else
      match parse_u16 p with
      | some v => parsePortsLoop rest (ports ++ [v])
      | none => parsePortsLoop rest ports

/-- Models `parse_ports` from src/main.rs: a comma splits the spec into
tokens handled by the loop; otherwise a spec containing a dash is a single
range, a spec parsing as `u16` is a single port, and anything else falls
back to the default range `1..=1024`. `none` models a panic. -/
def parse_ports (ports_arg : List Char) : Option (List Nat) :=
  if ',' ∈ ports_arg then
    parsePortsLoop (splitOnChar ',' ports_arg) []
  else if '-' ∈ ports_arg then
    match evalRange ports_arg with
    | none => none
    | some r => some r
  else
    match parse_u16 ports_arg with
    | some p => some [p]
    | none => some defaultPorts

/-- Spec-side reformulation of the comma rule of the port grammar (spec
§4.1 rule 1): every comma-separated token is evaluated independently and
the contributions are concatenated in left-to-right token order, the whole
spec panicking exactly when some token panics. Stated separately from
`parsePortsLoop` so that the token-independence claim compares the
accumulating loop of the source against it. -/
def evalTokensIndependently : List (List Char) → Option (List Nat)
  | [] => some []
  | t :: ts =>
    match evalToken t, evalTokensIndependently ts with
    | some r, some rs => some (r ++ rs)
    | _, _ => none

/-- Models `ScanConfig` from src/main.rs. `target_ip` is the resolved
target address (its value is never inspected by the scan logic, only
forwarded to the connect call, so it is embedded as a bare number);
`timeout` is the per-connection timeout in seconds. -/
structure ScanConfig where
  target_ip : Nat
  ports : List Nat
  concurrency : Nat
  timeout : Nat
  verbose : Bool
deriving DecidableEq

/-- One console line produced by the program: the `"{}: open"` and
`"{}: closed"` lines of `open_port`, and the `"[eyes] Finished scan"`
line of `scan`. -/
inductive Line where
  | portOpen : Nat → Line
  | portClosed : Nat → Line
  | finished : Line
deriving DecidableEq

/-- The three outcomes of
`tokio::time::timeout(timeout, TcpStream::connect(addr)).await`:
`connected` is `Ok(Ok(stream))`, `connError` is `Ok(Err(e))` (refused or
other I/O error before the deadline) and `timedOut` is `Err(Elapsed)`. -/
inductive ConnectOutcome where
  | connected
  | connError
  | timedOut
deriving DecidableEq

/-- Models `open_port` from src/main.rs: the lines it prints for a probe
of `port` that resolved with outcome `o`. `Ok(Ok(_))` prints open
unconditionally; every other case prints closed only when verbose. The
function is total: no outcome propagates an error out of the probe. -/
def open_port (c : ScanConfig) (port : Nat) (o : ConnectOutcome) : List Line :=
  match o with
  | ConnectOutcome.connected => [Line.portOpen port]
  | _ => if c.verbose then [Line.portClosed port] else []

/-- Scheduler state of one run of `scan`: `pending` are the ports of the
stream not yet admitted, `inflight` the probes started and not yet
completed, `done` the completed probes, `out` the console lines printed so
far, and `finished` whether the final completion line has been printed. -/
structure ScanState where
  pending : List Nat
  inflight : List Nat
  done : List Nat
  out : List Line
  finished : Bool
deriving DecidableEq

/-- The state in which `scan` begins: the whole port list pending, nothing
in flight, nothing printed. -/
def initState (sc : ScanConfig) : ScanState :=
  { pending := sc.ports, inflight := [], done := [], out := [], finished := false }

/-- Small-step semantics of `scan` from src/main.rs:
`stream::iter(ports).for_each_concurrent(sc.concurrency, |port| open_port(sc, port))`
followed by printing the completion line.
`start` admits the next port of the stream, gated by `for_each_concurrent`'s
limit (a limit of `0` means no limit, as in the `futures` crate); `finish`
completes an in-flight probe with some connection outcome, printing what
`open_port` prints; `complete` prints the completion line once the stream
is exhausted and every probe has completed. Probe completions are not
ordered: any in-flight probe may finish next. -/
inductive ScanStep (sc : ScanConfig) : ScanState → ScanState → Prop where
  | start (p : Nat) (rest infl done : List Nat) (out : List Line)
      (hgate : sc.concurrency = 0 ∨ infl.length < sc.concurrency) :
      ScanStep sc ⟨p :: rest, infl, done, out, false⟩ ⟨rest, p :: infl, done, out, false⟩
  | finish (pending infl done : List Nat) (out : List Line) (p : Nat) (o : ConnectOutcome)
      (hp : p ∈ infl) :
      ScanStep sc ⟨pending, infl, done, out, false⟩
        ⟨pending, infl.erase p, p :: done, out ++ open_port sc p o, false⟩
  | complete (done : List Nat) (out : List Line) :
      ScanStep sc ⟨[], [], done, out, false⟩ ⟨[], [], done, out ++ [Line.finished], true⟩

/-- States reachable by the scan scheduler from a given state. -/
def scanReachable (sc : ScanConfig) : ScanState → ScanState → Prop :=
  Relation.ReflTransGen (ScanStep sc)

/-- Inductive invariant of the scan scheduler, relative to the initial
state of a configuration: the concurrency gate is respected, the pending,
in-flight and completed ports together are exactly the configured ports,
and the completion line is printed exactly once, last, and only in the
terminal drained state. -/
structure ScanInv (sc : ScanConfig) (s : ScanState) : Prop where
  bound : sc.concurrency = 0 ∨ s.inflight.length ≤ sc.concurrency
  perm : (s.pending ++ s.inflight ++ s.done).Perm sc.ports
  fin_drained : s.finished = true → s.pending = [] ∧ s.inflight = []
  fin_count : s.out.count Line.finished = if s.finished then 1 else 0
  fin_last : s.finished = true → s.out.getLast? = some Line.finished
  out_empty : s.finished = false → s.done = [] → s.out = []
  fin_out : s.finished = true → s.done = [] → s.out = [Line.finished]

/-- Concrete two-port configuration used to witness the scheduler claims. -/
def scanCfgTwo : ScanConfig :=
  { target_ip := 0, ports := [5, 6], concurrency := 1, timeout := 3, verbose := false }

/-- Concrete zero-port verbose configuration used to witness the scheduler
claims. -/
def scanCfgEmpty : ScanConfig :=
  { target_ip := 0, ports := [], concurrency := 4, timeout := 3, verbose := true }

/-! ### Helper lemmas about the embedded string operations -/

/-- `split` always produces at least one piece. -/
theorem splitOnChar_ne_nil (sep : Char) (s : List Char) : splitOnChar sep s ≠ [] := by
  cases s with
  | nil => simp [splitOnChar]
  | cons c rest =>
    rw [splitOnChar]
    split
    · simp
    · cases h : splitOnChar sep rest <;> simp [h]

/-- A piece with no separator splits into itself alone. -/
theorem splitOnChar_not_mem (sep : Char) (s : List Char) (h : sep ∉ s) :
    splitOnChar sep s = [s] := by
  induction s with
  | nil => rfl
  | cons c rest ih =>
    have hc : c ≠ sep := fun hc => h (hc ▸ List.mem_cons_self c rest)
    have hrest : sep ∉ rest := fun hm => h (List.mem_cons_of_mem c hm)
    rw [splitOnChar, if_neg hc, ih hrest]

/-- Splitting at the first separator occurrence peels off the prefix. -/
theorem splitOnChar_append (sep : Char) (s1 s2 : List Char) (h : sep ∉ s1) :
    splitOnChar sep (s1 ++ sep :: s2) = s1 :: splitOnChar sep s2 := by
  induction s1 with
  | nil => rw [List.nil_append, splitOnChar, if_pos rfl]
  | cons c s1 ih =>
    have hc : c ≠ sep := fun hc => h (hc ▸ List.mem_cons_self c s1)
    have hs1 : sep ∉ s1 := fun hm => h (List.mem_cons_of_mem c hm)
    rw [List.cons_append, splitOnChar, if_neg hc, ih hs1]

/-- Every character consumed by the digit-folding loop is an ASCII digit. -/
theorem parseDigitsU16_digits (s : List Char) (acc a : Nat)
    (h : parseDigitsU16 s acc = some a) : ∀ c ∈ s, c.isDigit = true := by
  induction s generalizing acc with
  | nil => simp
  | cons c rest ih =>
    rw [parseDigitsU16] at h
    split at h
    · split at h
      · intro d hd
        rcases List.mem_cons.mp hd with rfl | hmem
        · assumption
        · exact ih _ h d hmem
      · exact absurd h (by simp)
    · exact absurd h (by simp)

/-- A string accepted by `parse_u16` contains neither a dash nor a comma:
all its characters are the optional sign or ASCII digits. -/
theorem parse_u16_chars (s : List Char) (a : Nat) (h : parse_u16 s = some a) :
    '-' ∉ s ∧ ',' ∉ s := by
  cases s with
  | nil => simp [parse_u16] at h
  | cons c rest =>
    rw [parse_u16] at h
    by_cases hc : c = '+'
    · rw [if_pos hc] at h
      by_cases he : rest.isEmpty
      · rw [if_pos he] at h; exact absurd h (by simp)
      · rw [if_neg he] at h
        have hdig := parseDigitsU16_digits rest 0 a h
        subst hc
        constructor <;> intro hmem <;> rcases List.mem_cons.mp hmem with h' | h'
        · exact absurd h' (by decide)
        · exact absurd (hdig _ h') (by decide)
        · exact absurd h' (by decide)
        · exact absurd (hdig _ h') (by decide)
    · rw [if_neg hc] at h
      have hdig := parseDigitsU16_digits (c :: rest) 0 a h
      constructor <;> intro hmem
      · exact absurd (hdig _ hmem) (by decide)
      · exact absurd (hdig _ hmem) (by decide)

/-- The expansion of a Rust inclusive range never repeats a port. -/
theorem rangeIncl_nodup (a b : Nat) : (rangeIncl a b).Nodup := by
  rw [rangeIncl]
  split
  · exact List.nodup_range' a (b - a + 1)
  · exact List.nodup_nil

/-- Whatever a range token evaluates to without panicking is duplicate-free. -/
theorem evalRange_nodup (p : List Char) (l : List Nat) (h : evalRange p = some l) :
    l.Nodup := by
  rw [evalRange] at h
  cases hm : (splitOnChar '-' p).mapM parse_u16 with
  | none => rw [hm] at h; exact absurd h (by simp)
  | some r =>
    rw [hm] at h
    match r with
    | [] => exact absurd h (by simp)
    | [a] => exact absurd h (by simp)
    | a :: b :: rest =>
      simp only [Option.some.injEq] at h
      exact h ▸ rangeIncl_nodup a b

/-- Evaluation of `mapM` on a two-element piece list. -/
theorem mapM_pair (f : List Char → Option Nat) (s1 s2 : List Char) (a b : Nat)
    (ha : f s1 = some a) (hb : f s2 = some b) : [s1, s2].mapM f = some [a, b] := by
  simp [List.mapM, List.mapM.loop, ha, hb]

/-- Evaluating `parse_ports` on a well-formed range spec `s1-s2` reaches the
single-range branch and yields exactly the inclusive-range expansion. -/
theorem parse_ports_range_eval (s1 s2 : List Char) (a b : Nat)
    (ha : parse_u16 s1 = some a) (hb : parse_u16 s2 = some b) :
    parse_ports (s1 ++ '-' :: s2) = some (rangeIncl a b) := by
  obtain ⟨hd1, hc1⟩ := parse_u16_chars s1 a ha
  obtain ⟨hd2, hc2⟩ := parse_u16_chars s2 b hb
  have hcomma : ',' ∉ s1 ++ '-' :: s2 := by
    intro hmem
    rcases List.mem_append.mp hmem with h' | h'
    · exact hc1 h'
    · rcases List.mem_cons.mp h' with h'' | h''
      · exact absurd h'' (by decide)
      · exact hc2 h''
  have hdash : '-' ∈ s1 ++ '-' :: s2 :=
    List.mem_append.mpr (Or.inr (List.mem_cons_self _ _))
  rw [parse_ports, if_neg hcomma, if_pos hdash, evalRange,
    splitOnChar_append '-' s1 s2 hd1, splitOnChar_not_mem '-' s2 hd2,
    mapM_pair parse_u16 s1 s2 a b ha hb]

/-- The loop of `parse_ports` evaluates each token independently and
appends the contributions, in token order, onto its accumulator. -/
theorem parsePortsLoop_eq_tokens (ts : List (List Char)) (acc : List Nat) :
    parsePortsLoop ts acc = (evalTokensIndependently ts).map fun ls => acc ++ ls := by
  induction ts generalizing acc with
  | nil => simp [parsePortsLoop, evalTokensIndependently]
  | cons t ts ih =>
    rw [parsePortsLoop, evalTokensIndependently]
    by_cases hd : '-' ∈ t
    · cases hE : evalRange t with
      | none => simp [evalToken, hd, hE]
      | some r =>
        cases hR : evalTokensIndependently ts with
        | none => simp [evalToken, hd, hE, hR, ih]
        | some rs => simp [evalToken, hd, hE, hR, ih, List.append_assoc]
    · cases hP : parse_u16 t with
      | none =>
        cases hR : evalTokensIndependently ts with
        | none => simp [evalToken, hd, hP, hR, ih]
        | some rs => simp [evalToken, hd, hP, hR, ih]
      | some v =>
        cases hR : evalTokensIndependently ts with
        | none => simp [evalToken, hd, hP, hR, ih]
        | some rs => simp [evalToken, hd, hP, hR, ih, List.append_assoc]

/-! ### Lemmas about the scan scheduler -/

/-- A probe never prints the completion line. -/
theorem open_port_no_finished (sc : ScanConfig) (p : Nat) (o : ConnectOutcome) :
    Line.finished ∉ open_port sc p o := by
  cases o <;> rw [open_port] <;> try split
  all_goals simp

/-- The invariant holds in the initial state. -/
theorem scanInv_init (sc : ScanConfig) : ScanInv sc (initState sc) := by
  refine ⟨Or.inr ?_, ?_, ?_, ?_, ?_, ?_, ?_⟩ <;> simp [initState]

/-- Every scheduler step preserves the invariant. -/
theorem scanInv_step (sc : ScanConfig) (s t : ScanState) (hinv : ScanInv sc s)
    (hst : ScanStep sc s t) : ScanInv sc t := by
  obtain ⟨hb, hperm, hfd, hfc, hfl, hoe, hfo⟩ := hinv
  cases hst with
  | start p rest infl done out hgate =>
    refine ⟨?_, ?_, ?_, ?_, ?_, ?_, ?_⟩
    · rcases hgate with h0 | hlt
      · exact Or.inl h0
      · exact Or.inr (by simpa using hlt)
    · refine List.Perm.trans ?_ hperm
      simp only [List.cons_append, List.append_assoc]
      exact List.perm_middle
    · simp
    · simpa using hfc
    · simp
    · intro h1 h2
      exact hoe h1 h2
    · simp
  | finish pending infl done out p o hp =>
    refine ⟨?_, ?_, ?_, ?_, ?_, ?_, ?_⟩
    · rcases hb with h0 | hle
      · exact Or.inl h0
      · exact Or.inr (le_trans (List.length_erase_le p infl) hle)
    · refine List.Perm.trans ?_ hperm
      have h1 : (infl.erase p ++ p :: done).Perm (p :: (infl.erase p ++ done)) :=
        List.perm_middle
      have h2 : (infl ++ done).Perm (p :: (infl.erase p ++ done)) := by
        simpa using (List.perm_cons_erase hp).append_right done
      have h3 := List.Perm.append_left pending (h1.trans h2.symm)
      simpa [List.append_assoc] using h3
    · simp
    · rw [List.count_append, List.count_eq_zero.mpr (open_port_no_finished sc p o)]
      simpa using hfc
    · simp
    · intro _ h2
      exact absurd h2 (by simp)
    · simp
  | complete done out =>
    refine ⟨?_, ?_, ?_, ?_, ?_, ?_, ?_⟩
    · exact Or.inr (by simp)
    · exact hperm
    · simp
    · have hfc0 : out.count Line.finished = 0 := by simpa using hfc
      simp [List.count_append, hfc0]
    · intro _
      simp
    · simp
    · intro _ hdone
      have hout : out = [] := hoe rfl hdone
      rw [hout, List.nil_append]

/-- The invariant holds in every state reachable from the initial state. -/
theorem scanInv_reachable (sc : ScanConfig) (s : ScanState)
    (h : scanReachable sc (initState sc) s) : ScanInv sc s := by
  induction h with
  | refl => exact scanInv_init sc
  | tail _ hstep ih => exact scanInv_step sc _ _ ih hstep

/-! ### Claim theorems: the port set resolver -/

/-- C1: the claim that `parse_ports` is total and never crashes fails on the
code: a range token with a non-numeric bound (`"1-a"`) or an
out-of-16-bit-range bound (`"1-70000"`) hits `.parse::<u16>().unwrap()` and
panics; in the embedding both evaluate to `none`, the model of a panic. -/
theorem parse_ports_panics_on_bad_range_bound :
    parse_ports ("1-a").toList = none ∧ parse_ports ("1-70000").toList = none :=
  ⟨rfl, rfl⟩

/-- C2: resolving the empty string does yield the default sequence
`[1, …, 1024]`, but resolving `"not-a-port"` does not: the string contains
dashes, so it is treated as a range and its non-numeric bounds make the
`unwrap` panic (modelled by `none`) instead of falling back to the default. -/
theorem parse_ports_empty_default_not_a_port_panics :
    parse_ports ("").toList = some (List.range' 1 1024) ∧
      parse_ports ("not-a-port").toList = none :=
  ⟨rfl, rfl⟩

/-- C3: an out-of-16-bit-range numeric token such as `"70000"` contributes
no port, does not panic, and is not wrapped modulo 2^16: inside a comma
list it is silently skipped, and as a standalone spec its failed parse falls
through to the default range `1..=1024`, which does not contain the wrapped
value `70000 % 65536 = 4464`. -/
theorem parse_ports_out_of_range_token :
    parse_ports ("70000,80").toList = some [80] ∧
      parse_ports ("70000").toList = some (List.range' 1 1024) ∧
      4464 ∉ List.range' 1 1024 ∧ 70000 % 65536 = 4464 :=
  ⟨rfl, rfl, by decide, rfl⟩

/-- C4 counterexample: the resolver is not deduplicated by construction;
the spec `"22,22"` resolves to `[22, 22]`, which has a duplicate. -/
theorem parse_ports_duplicates_counterexample :
    parse_ports ("22,22").toList = some [22, 22] ∧ ¬ ([22, 22] : List Nat).Nodup :=
  ⟨rfl, by decide⟩

/-- C4 (amended): `parse_ports` does not deduplicate across comma-separated
tokens, but any spec without a comma (a single port, a single range, or the
default fallback) resolves to a duplicate-free sequence. -/
theorem parse_ports_nodup_without_comma (s : List Char) (l : List Nat)
    (hc : ',' ∉ s) (h : parse_ports s = some l) : l.Nodup := by
  rw [parse_ports, if_neg hc] at h
  by_cases hd : '-' ∈ s
  · rw [if_pos hd] at h
    cases hE : evalRange s with
    | none => rw [hE] at h; exact absurd h (by simp)
    | some r =>
      rw [hE] at h
      simp only [Option.some.injEq] at h
      exact h ▸ evalRange_nodup s r hE
  · rw [if_neg hd] at h
    cases hP : parse_u16 s with
    | none =>
      rw [hP] at h
      simp only [Option.some.injEq] at h
      exact h ▸ List.nodup_range' 1 1024
    | some v =>
      rw [hP] at h
      simp only [Option.some.injEq] at h
      exact h ▸ List.nodup_singleton v

/-- C4 witness: the comma-free range spec `"8000-8002"` resolves without
duplicates. -/
theorem parse_ports_nodup_without_comma_witness :
    ',' ∉ ("8000-8002").toList ∧ (List.range' 8000 3).Nodup :=
  ⟨by decide, parse_ports_nodup_without_comma ("8000-8002").toList (List.range' 8000 3)
    (by decide) rfl⟩

/-- C5: any well-formed range spec `a-b` with numeric 16-bit bounds and
`a ≤ b` resolves to exactly the ascending inclusive sequence
`[a, a+1, …, b]` (that is, `List.range' a (b - a + 1)`). -/
theorem parse_ports_range_ascending (s1 s2 : List Char) (a b : Nat)
    (ha : parse_u16 s1 = some a) (hb : parse_u16 s2 = some b) (hab : a ≤ b) :
    parse_ports (s1 ++ '-' :: s2) = some (List.range' a (b - a + 1)) := by
  rw [parse_ports_range_eval s1 s2 a b ha hb, rangeIncl, if_pos hab]

/-- C5 witness: `"8000-8002"` resolves to `[8000, 8001, 8002]`. -/
theorem parse_ports_range_ascending_witness :
    parse_u16 ("8000").toList = some 8000 ∧ parse_u16 ("8002").toList = some 8002 ∧
      8000 ≤ 8002 ∧
      parse_ports (("8000").toList ++ '-' :: ("8002").toList) =
        some (List.range' 8000 3) :=
  ⟨rfl, rfl, by decide,
    parse_ports_range_ascending ("8000").toList ("8002").toList 8000 8002 rfl rfl
      (by decide)⟩

/-- C6: for a comma-separated spec, each comma token is resolved
independently by the loop body and the contributions are concatenated in
left-to-right token order (`none` models a panic of some token). -/
theorem parse_ports_comma_tokens_independent (s : List Char) (hc : ',' ∈ s) :
    parse_ports s = evalTokensIndependently (splitOnChar ',' s) := by
  rw [parse_ports, if_pos hc, parsePortsLoop_eq_tokens]
  cases evalTokensIndependently (splitOnChar ',' s) <;> simp

/-- C6 witness: `"22,80,8000-8002"` resolves token-by-token to
`[22, 80, 8000, 8001, 8002]`. -/
theorem parse_ports_comma_tokens_independent_witness :
    ',' ∈ ("22,80,8000-8002").toList ∧
      parse_ports ("22,80,8000-8002").toList =
        evalTokensIndependently (splitOnChar ',' ("22,80,8000-8002").toList) ∧
      parse_ports ("22,80,8000-8002").toList = some [22, 80, 8000, 8001, 8002] :=
  ⟨by decide,
    parse_ports_comma_tokens_independent ("22,80,8000-8002").toList (by decide), rfl⟩

/-- C10: a reversed range token `low-high` with both bounds valid 16-bit
numbers and `low > high` contributes no ports and does not panic: the
inclusive range construction silently yields the empty sequence. -/
theorem parse_ports_reversed_range_empty (s1 s2 : List Char) (a b : Nat)
    (ha : parse_u16 s1 = some a) (hb : parse_u16 s2 = some b) (hba : b < a) :
    parse_ports (s1 ++ '-' :: s2) = some [] := by
  rw [parse_ports_range_eval s1 s2 a b ha hb, rangeIncl, if_neg (Nat.not_le.mpr hba)]

/-- C10 witness: `"80-22"` resolves, without panicking, to the empty
sequence. -/
theorem parse_ports_reversed_range_empty_witness :
    parse_u16 ("80").toList = some 80 ∧ parse_u16 ("22").toList = some 22 ∧ 22 < 80 ∧
      parse_ports (("80").toList ++ '-' :: ("22").toList) = some [] :=
  ⟨rfl, rfl, by decide,
    parse_ports_reversed_range_empty ("80").toList ("22").toList 80 22 rfl rfl
      (by decide)⟩

/-! ### Claim theorems: the scan engine -/

/-- C7: a probe whose connection establishes before the timeout prints the
open line unconditionally; a probe that times out, is refused or errors is
absorbed (the probe still returns output instead of propagating a failure)
and prints the closed line exactly when the verbose flag is set. -/
theorem open_port_classification (c : ScanConfig) (port : Nat) (o : ConnectOutcome) :
    (o = ConnectOutcome.connected → open_port c port o = [Line.portOpen port]) ∧
      (o ≠ ConnectOutcome.connected →
        open_port c port o = if c.verbose then [Line.portClosed port] else []) := by
  cases o
  · exact ⟨fun _ => rfl, fun h => absurd rfl h⟩
  · exact ⟨fun h => absurd h (by decide), fun _ => rfl⟩
  · exact ⟨fun h => absurd h (by decide), fun _ => rfl⟩

/-- C7 witness: under the verbose zero-port configuration, a timed-out
probe of port 80 prints the closed line. -/
theorem open_port_classification_witness :
    ConnectOutcome.timedOut ≠ ConnectOutcome.connected ∧
      open_port scanCfgEmpty 80 ConnectOutcome.timedOut = [Line.portClosed 80] := by
  refine ⟨by decide, ?_⟩
  rw [(open_port_classification scanCfgEmpty 80 ConnectOutcome.timedOut).2 (by decide)]
  rfl

/-- C8: in any state reachable during a scan with a positive concurrency
limit, the number of started-but-not-completed probes never exceeds the
limit, and the window slides rather than running in batches of N: whenever
ports are still queued and a slot is free, the admission step itself is
enabled — the scheduler may move the next queued port into the in-flight
set, leaving everything else unchanged, without waiting for the rest of
any batch. -/
theorem scan_concurrency_bound (sc : ScanConfig) (s : ScanState)
    (hk : 0 < sc.concurrency) (h : scanReachable sc (initState sc) s) :
    s.inflight.length ≤ sc.concurrency ∧
      (s.pending ≠ [] → s.inflight.length < sc.concurrency →
        ∃ p rest, s.pending = p :: rest ∧
          ScanStep sc s ⟨rest, p :: s.inflight, s.done, s.out, false⟩) := by
  have hinv := scanInv_reachable sc s h
  constructor
  · rcases hinv.bound with h0 | hle
    · omega
    · exact hle
  · intro hp hlt
    obtain ⟨pending, inflight, done, out, fin⟩ := s
    cases fin with
    | true => exact absurd (hinv.fin_drained rfl).1 hp
    | false =>
      cases pending with
      | nil => exact absurd rfl hp
      | cons p rest =>
        exact ⟨p, rest, rfl, ScanStep.start p rest inflight done out (Or.inr hlt)⟩

/-- C8 witness: the bound and the enabled-admission property instantiated
at the initial state of the two-port, concurrency-one configuration. -/
theorem scan_concurrency_bound_witness :
    (initState scanCfgTwo).inflight.length ≤ scanCfgTwo.concurrency ∧
      ((initState scanCfgTwo).pending ≠ [] →
        (initState scanCfgTwo).inflight.length < scanCfgTwo.concurrency →
        ∃ p rest, (initState scanCfgTwo).pending = p :: rest ∧
          ScanStep scanCfgTwo (initState scanCfgTwo)
            ⟨rest, p :: (initState scanCfgTwo).inflight, (initState scanCfgTwo).done,
              (initState scanCfgTwo).out, false⟩) :=
  scan_concurrency_bound scanCfgTwo (initState scanCfgTwo) (by decide)
    Relation.ReflTransGen.refl

/-- C9: when a scan run reaches its finished state, the completed probes
are exactly the configured ports (each probed exactly once, counting
multiplicity), the completion line has been printed exactly once and is the
last line, and a scan over zero ports prints only the completion line. -/
theorem scan_each_port_once_completion_last (sc : ScanConfig) (s : ScanState)
    (h : scanReachable sc (initState sc) s) (hf : s.finished = true) :
    s.done.Perm sc.ports ∧ s.out.count Line.finished = 1 ∧
      s.out.getLast? = some Line.finished ∧
      (sc.ports = [] → s.out = [Line.finished]) := by
  have hinv := scanInv_reachable sc s h
  obtain ⟨hpe, hie⟩ := hinv.fin_drained hf
  refine ⟨?_, ?_, hinv.fin_last hf, ?_⟩
  · have hperm := hinv.perm
    rw [hpe, hie] at hperm
    simpa using hperm
  · rw [hinv.fin_count, hf]
    rfl
  · intro hports
    have hdone : s.done = [] := by
      have hperm := hinv.perm
      rw [hpe, hie, hports] at hperm
      simpa using hperm.eq_nil
    exact hinv.fin_out hf hdone

/-- C9 witness: the one-step run of the zero-port configuration ends with
exactly the completion line. -/
theorem scan_each_port_once_completion_last_witness :
    (⟨[], [], [], [Line.finished], true⟩ : ScanState).done.Perm scanCfgEmpty.ports ∧
      (⟨[], [], [], [Line.finished], true⟩ : ScanState).out.count Line.finished = 1 ∧
      (⟨[], [], [], [Line.finished], true⟩ : ScanState).out.getLast? =
        some Line.finished ∧
      (scanCfgEmpty.ports = [] →
        (⟨[], [], [], [Line.finished], true⟩ : ScanState).out = [Line.finished]) :=
  scan_each_port_once_completion_last scanCfgEmpty ⟨[], [], [], [Line.finished], true⟩
    (Relation.ReflTransGen.single (ScanStep.complete [] [])) rfl
